import Mathlib

/-
Verification of the LP row-generation core of wire-cell-paal
(src/inc/WCPPaal/k_median.h, which bundles lp_row_generation.hpp).

The embedding models the stateful C++ callables by explicit state passing:
a `try_add_violated` functor becomes `σ → Bool × σ`, a `solve_lp` functor
becomes `σ → problem_type × σ`, and the potentially unbounded do-while loop
of `row_generation` is given a fuel argument, with `none` meaning "did not
terminate within that many iterations of the solve/add loop".

The candidate ranges produced by `get_candidates` are modelled as lists,
scanned left to right exactly as the C++ `for` loops do.  The scans carry an
extra natural number counting the evaluations of `how_violated`, so that
claims about how often the violation test is invoked are provable; the first
component of each scan is the faithful behaviour of the C++ loop.
-/

namespace Paal

/-- Modelled from the spec: `problem_type.h` is not under src.  The spec says
the LP status is an enumeration with at least `OPTIMAL`, `INFEASIBLE` and
`UNBOUNDED`, and the loop only distinguishes `OPTIMAL` from everything else. -/
inductive problem_type : Type
  | OPTIMAL : problem_type
  | INFEASIBLE : problem_type
  | UNBOUNDED : problem_type
  deriving DecidableEq, Repr

/-- Fueled embedding of `row_generation` (k_median.h lines 74-80):
`do res = solve_lp(); while (res == OPTIMAL && try_add_violated()); return res;`.
One unit of fuel is one iteration of the do-while loop (one `solve_lp` call);
`&&` short-circuits, so `try_add_violated` runs only after an `OPTIMAL` solve. -/
def row_generation {σ : Type} (try_add_violated : σ → Bool × σ)
    (solve_lp : σ → problem_type × σ) : ℕ → σ → Option (problem_type × σ)
  | 0, _ => none
  | fuel + 1, s =>
    let r := solve_lp s
    if r.1 = problem_type.OPTIMAL then
      let t := try_add_violated r.2
      if t.1 then row_generation try_add_violated solve_lp fuel t.2
      else some (r.1, t.2)
    else some (r.1, r.2)

/-- One step of the `add_max_violated` loop body (k_median.h lines 115-120):
skip a candidate whose measure is empty; otherwise it becomes the new best
when there is no best yet, or when `cmp best how` holds strictly. -/
def max_violated_step {M Cand : Type} (cmp : M → M → Bool)
    (most : Option (M × Cand)) (how : Option M) (c : Cand) : Option (M × Cand) :=
  match how with
  | none => most
  | some h =>
    match most with
    | none => some (h, c)
    | some (m, b) => if cmp m h then some (h, c) else some (m, b)

/-- The candidate scan of `add_max_violated::operator()` (k_median.h lines
115-120), carried out left to right with the `most` accumulator, together
with a count of the evaluations of `how_violated` (the C++ loop evaluates it
exactly once per candidate). -/
def max_violated_scan {M Cand : Type} (how_violated : Cand → Option M)
    (cmp : M → M → Bool) (most : Option (M × Cand)) (count : ℕ) :
    List Cand → Option (M × Cand) × ℕ
  | [] => (most, count)
  | c :: cs =>
    max_violated_scan how_violated cmp
      (max_violated_step cmp most (how_violated c) c) (count + 1) cs

/-- `add_max_violated::operator()` (k_median.h lines 110-124): scan all
candidates for the most violated one; if none is violated return `false`,
otherwise commit the recorded best candidate via `add_violated` and return
`true`. -/
def add_max_violated {M Cand σ : Type} (get_candidates : List Cand)
    (how_violated : Cand → Option M) (add_violated : Cand → σ → σ)
    (cmp : M → M → Bool) (s : σ) : Bool × σ :=
  match (max_violated_scan how_violated cmp none 0 get_candidates).1 with
  | none => (false, s)
  | some mc => (true, add_violated mc.2 s)

/-- The candidate scan of `add_first_violated::operator()` (k_median.h lines
175-180): stop at the first candidate whose violation test is truthy.  The
second component counts the evaluations of `how_violated`: one per visited
candidate, and candidates after the committed one are never evaluated. -/
def first_violated_scan {M Cand : Type} (how_violated : Cand → Option M) :
    List Cand → Option Cand × ℕ
  | [] => (none, 0)
  | c :: cs =>
    if (how_violated c).isSome then (some c, 1)
    else
      let p := first_violated_scan how_violated cs
      (p.1, p.2 + 1)

/-- `add_first_violated::operator()` (k_median.h lines 171-182): reorder the
candidates, scan for the first violated one; commit it and return `true`, or
return `false` if the scan exhausts. -/
def add_first_violated {M Cand σ : Type} (get_candidates : List Cand)
    (how_violated : Cand → Option M) (add_violated : Cand → σ → σ)
    (reorder_candidates : List Cand → List Cand) (s : σ) : Bool × σ :=
  match (first_violated_scan how_violated (reorder_candidates get_candidates)).1 with
  | some c => (true, add_violated c s)
  | none => (false, s)

/-- Modelled from the spec: `utils::rotate` (rotate.h) is not under src.  The
spec says the candidate sequence is left-rotated by the drawn offset. -/
def rotate {α : Type} (l : List α) (n : ℕ) : List α := l.drop n ++ l.take n

/-- `detail::random_rotate::operator()` (k_median.h lines 213-219): compute
the length, draw `d(m_g)` with `d = uniform_int_distribution(0, len)` —
bounds inclusive, so `len + 1` possible offsets — and rotate by the offset.
The generator is a pure state machine `next : G → ℕ × G`; the draw over
`[0, len]` is modelled from the spec as the raw value modulo `len + 1`. -/
def random_rotate {G Cand : Type} (next : G → ℕ × G) (g : G)
    (rng : List Cand) : List Cand × G :=
  (rotate rng ((next g).1 % (rng.length + 1)), (next g).2)

/-- `random_violated_separation_oracle` (k_median.h lines 232-249): the
first-violated oracle whose reorder transform is `random_rotate` over the
oracle-owned generator.  The generator state is threaded through each
invocation: it advances by one `next` per call. -/
def random_violated_oracle {M Cand G σ : Type} (get_candidates : List Cand)
    (how_violated : Cand → Option M) (add_violated : Cand → σ → σ)
    (next : G → ℕ × G) (gs : G × σ) : Bool × (G × σ) :=
  let rr := random_rotate next gs.1 get_candidates
  let p := add_first_violated get_candidates how_violated add_violated
    (fun _ => rr.1) gs.2
  (p.1, (rr.2, p.2))

/-- `row_generation` wired with the first-violated oracle over an LP state
that records the set of added rows: `get_candidates` is a fixed list,
`how_violated` reads the current row set through `violated`, and
`add_violated` inserts the committed row. -/
def row_generation_first_violated {Cand : Type} [DecidableEq Cand]
    (cands : List Cand) (violated : Cand → Finset Cand → Bool)
    (solve : Finset Cand → problem_type) (fuel : ℕ) (s : Finset Cand) :
    Option (problem_type × Finset Cand) :=
  row_generation
    (fun st => add_first_violated cands
      (fun c => if violated c st then some () else none)
      (fun c st2 => insert c st2) (fun l => l) st)
    (fun st => (solve st, st)) fuel s

/-- Once-satisfied-stays-satisfied: a violation test that is monotonically
non-increasing as rows are added. -/
def violation_monotone {Cand : Type} [DecidableEq Cand]
    (violated : Cand → Finset Cand → Bool) : Prop :=
  ∀ (c : Cand) (S T : Finset Cand), S ⊆ T → violated c S = false →
    violated c T = false

/-- A deterministic counter generator used for concrete scenarios: the state
is a natural number, each draw returns the state and advances it by one. -/
def counter_gen : ℕ → ℕ × ℕ := fun n => (n, n + 1)

/-- Instrumented `solve_lp` for the end-to-end scenario: always `OPTIMAL`,
counting solves in the first state component. -/
def scenario_solve (st : ℕ × ℕ × ℕ) : problem_type × (ℕ × ℕ × ℕ) :=
  (problem_type.OPTIMAL, (st.1 + 1, st.2.1, st.2.2))

/-- Instrumented `solve_lp` returning `INFEASIBLE` on every call, counting
solves in the first state component. -/
def scenario_solve_infeasible (st : ℕ × ℕ × ℕ) : problem_type × (ℕ × ℕ × ℕ) :=
  (problem_type.INFEASIBLE, (st.1 + 1, st.2.1, st.2.2))

/-- Instrumented oracle for the end-to-end scenario: the state counts
(solves, oracle calls, rows added); the oracle finds and adds a violated row
on its first three calls and reports none on the fourth. -/
def scenario_oracle (st : ℕ × ℕ × ℕ) : Bool × (ℕ × ℕ × ℕ) :=
  if st.2.1 < 3 then (true, (st.1, st.2.1 + 1, st.2.2 + 1))
  else (false, (st.1, st.2.1 + 1, st.2.2))


theorem max_violated_step_eq_none {M Cand : Type} (cmp : M → M → Bool)
    (most : Option (M × Cand)) (how : Option M) (c : Cand)
    (h : max_violated_step cmp most how c = none) : most = none ∧ how = none := by
  cases how with
  | none => exact ⟨h, rfl⟩
  | some m =>
    cases most with
    | none => simp [max_violated_step] at h
    | some mb =>
      simp only [max_violated_step] at h
      by_cases hc : cmp mb.1 m = true
      · simp [hc] at h
      · simp [hc] at h

theorem max_violated_scan_count {M Cand : Type} (how_violated : Cand → Option M)
    (cmp : M → M → Bool) :
    ∀ (l : List Cand) (most : Option (M × Cand)) (k : ℕ),
      (max_violated_scan how_violated cmp most k l).2 = k + l.length := by
  intro l
  induction l with
  | nil => intro most k; simp [max_violated_scan]
  | cons c cs ih =>
    intro most k
    simp only [max_violated_scan, ih, List.length_cons]
    omega

theorem max_violated_scan_eq_none {M Cand : Type} (how_violated : Cand → Option M)
    (cmp : M → M → Bool) :
    ∀ (l : List Cand) (most : Option (M × Cand)) (k : ℕ),
      (max_violated_scan how_violated cmp most k l).1 = none →
      most = none ∧ ∀ c ∈ l, how_violated c = none := by
  intro l
  induction l with
  | nil =>
    intro most k h
    simp [max_violated_scan] at h
    exact ⟨h, by simp⟩
  | cons c cs ih =>
    intro most k h
    simp only [max_violated_scan] at h
    obtain ⟨hstep, hrest⟩ := ih _ _ h
    obtain ⟨hmost, hhow⟩ := max_violated_step_eq_none cmp most (how_violated c) c hstep
    refine ⟨hmost, ?_⟩
    intro x hx
    rcases List.mem_cons.mp hx with hx | hx
    · exact hx ▸ hhow
    · exact hrest x hx

theorem max_violated_step_eq_some {M Cand : Type} (cmp : M → M → Bool)
    (most : Option (M × Cand)) (how : Option M) (c : Cand) (m1 : M) (c1 : Cand)
    (h : max_violated_step cmp most how c = some (m1, c1)) :
    (how = some m1 ∧ c1 = c) ∨ most = some (m1, c1) := by
  cases how with
  | none => right; exact h
  | some hm =>
    cases most with
    | none =>
      left
      simp [max_violated_step] at h
      exact ⟨by rw [h.1], h.2.symm⟩
    | some mb =>
      obtain ⟨m0, b0⟩ := mb
      by_cases hc : cmp m0 hm = true
      · left
        simp [max_violated_step, hc] at h
        exact ⟨by rw [h.1], h.2.symm⟩
      · right
        simp [max_violated_step, hc] at h
        rw [h.1, h.2]

theorem max_violated_scan_eq_some {M Cand : Type} (how_violated : Cand → Option M)
    (cmp : M → M → Bool) (base : List Cand) :
    ∀ (l : List Cand) (most : Option (M × Cand)) (k : ℕ),
      (∀ c ∈ l, c ∈ base) →
      (∀ m c, most = some (m, c) → how_violated c = some m ∧ c ∈ base) →
      ∀ m c, (max_violated_scan how_violated cmp most k l).1 = some (m, c) →
        how_violated c = some m ∧ c ∈ base := by
  intro l
  induction l with
  | nil =>
    intro most k _ hmost m c h
    simp [max_violated_scan] at h
    exact hmost m c h
  | cons c0 cs ih =>
    intro most k hsub hmost m c h
    simp only [max_violated_scan] at h
    refine ih _ _ (fun x hx => hsub x (List.mem_cons_of_mem _ hx)) ?_ m c h
    intro m1 c1 hstep
    rcases max_violated_step_eq_some cmp most (how_violated c0) c0 m1 c1 hstep with
      ⟨hh, hc1⟩ | hmost1
    · rw [hc1]
      exact ⟨hh, hsub c0 (List.mem_cons_self _ _)⟩
    · exact hmost m1 c1 hmost1

theorem first_violated_scan_eq_none {M Cand : Type} (how_violated : Cand → Option M) :
    ∀ (l : List Cand), (first_violated_scan how_violated l).1 = none →
      ∀ c ∈ l, (how_violated c).isSome = false := by
  intro l
  induction l with
  | nil => intro _ c hc; simp at hc
  | cons c0 cs ih =>
    intro h c hc
    simp only [first_violated_scan] at h
    by_cases h0 : (how_violated c0).isSome = true
    · simp [h0] at h
    · simp only [h0, if_false] at h
      rcases List.mem_cons.mp hc with hc | hc
      · subst hc; simpa using h0
      · exact ih h c hc

theorem first_violated_scan_eq_some {M Cand : Type} (how_violated : Cand → Option M) :
    ∀ (l : List Cand) (c : Cand), (first_violated_scan how_violated l).1 = some c →
      c ∈ l ∧ (how_violated c).isSome = true := by
  intro l
  induction l with
  | nil => intro c h; simp [first_violated_scan] at h
  | cons c0 cs ih =>
    intro c h
    simp only [first_violated_scan] at h
    by_cases h0 : (how_violated c0).isSome = true
    · simp [h0] at h
      subst h
      exact ⟨List.mem_cons_self _ _, h0⟩
    · simp only [h0, if_false] at h
      obtain ⟨hmem, hsome⟩ := ih c h
      exact ⟨List.mem_cons_of_mem _ hmem, hsome⟩

theorem first_violated_scan_append {M Cand : Type} (how_violated : Cand → Option M) :
    ∀ (l1 : List Cand) (c : Cand) (l2 : List Cand),
      (∀ x ∈ l1, (how_violated x).isSome = false) →
      (how_violated c).isSome = true →
      first_violated_scan how_violated (l1 ++ c :: l2) = (some c, l1.length + 1) := by
  intro l1
  induction l1 with
  | nil =>
    intro c l2 _ hc
    simp [first_violated_scan, hc]
  | cons x xs ih =>
    intro c l2 hok hc
    have hx : (how_violated x).isSome = false := hok x (List.mem_cons_self _ _)
    have ih2 := ih c l2 (fun y hy => hok y (List.mem_cons_of_mem _ hy)) hc
    simp only [List.cons_append, first_violated_scan, hx, Bool.false_eq_true,
      if_false, List.append_eq, ih2, List.length_cons]

/-- C1: `row_generation` solves the LP at least once and repeats while the
status is OPTIMAL and the oracle adds a row, returning the last status.
(i) If a solve returns a non-OPTIMAL status, the loop returns that status
and the post-solve state immediately, and the result does not depend on the
oracle at all — `try_add_violated` is never invoked.  (ii) In the
end-to-end scenario (always-OPTIMAL solves, oracle adding a row on each of
its first three calls and none on the fourth) the loop performs exactly 4
solves and 4 oracle calls of which 3 add a row, and returns OPTIMAL.
(iii) With a first solve returning INFEASIBLE, it returns INFEASIBLE after
1 solve, 0 oracle calls and 0 additions. -/
theorem C1_row_generation_loop :
    (∀ (σ : Type) (t t2 : σ → Bool × σ) (sl : σ → problem_type × σ)
      (fuel : ℕ) (s : σ), (sl s).1 ≠ problem_type.OPTIMAL →
      row_generation t sl (fuel + 1) s = some ((sl s).1, (sl s).2) ∧
      row_generation t sl (fuel + 1) s = row_generation t2 sl (fuel + 1) s) ∧
    row_generation scenario_oracle scenario_solve 10 (0, 0, 0) =
      some (problem_type.OPTIMAL, 4, 4, 3) ∧
    row_generation scenario_oracle scenario_solve_infeasible 10 (0, 0, 0) =
      some (problem_type.INFEASIBLE, 1, 0, 0) := by
  refine ⟨?_, by decide, by decide⟩
  intro σ t t2 sl fuel s h
  constructor
  · rw [row_generation]
    simp [h]
  · rw [row_generation, row_generation]
    simp [h]

/-- Witness for C1 at a concrete input: the first solve is INFEASIBLE, so
the loop stops after one solve with the oracle untouched. -/
theorem C1_row_generation_loop_witness :
    row_generation scenario_oracle scenario_solve_infeasible 1 (0, 0, 0) =
      some (problem_type.INFEASIBLE, 1, 0, 0) :=
  (C1_row_generation_loop.1 (ℕ × ℕ × ℕ) scenario_oracle scenario_oracle
    scenario_solve_infeasible 0 (0, 0, 0) (by decide)).1

/-- C3: the max-violated oracle commits the violated candidate whose measure
is greatest under the strict comparator, ties broken first-encountered: a
later candidate replaces the current best only when `cmp best cand` is true
(the step equations below), and on measures [3, 7, 2, 7] under less-than it
commits the candidate at index 1, not index 3, and returns true. -/
theorem C3_max_violated_tie_break :
    add_max_violated [0, 1, 2, 3] (fun i => [3, 7, 2, 7].get? i)
      (fun c l => c :: l) (fun a b => decide (a < b)) ([] : List ℕ) =
      (true, [1]) ∧
    (∀ (M Cand : Type) (cmp : M → M → Bool) (m h : M) (b c : Cand),
      max_violated_step cmp (some (m, b)) (some h) c =
        if cmp m h then some (h, c) else some (m, b)) ∧
    (∀ (M Cand : Type) (cmp : M → M → Bool) (most : Option (M × Cand)) (c : Cand),
      max_violated_step cmp most none c = most) :=
  ⟨by decide, fun _ _ _ _ _ _ _ => rfl, fun _ _ _ _ _ => rfl⟩

/-- C4: the first-violated oracle scans in the reordered order and commits
the first violated candidate, never evaluating later ones: on a prefix of
non-violated candidates followed by a violated one, the scan evaluates
`how_violated` exactly (prefix length + 1) times — regardless of what
follows — and the oracle commits that candidate; concretely on
[ok, ok, violated, violated] it evaluates 3 times, commits the 3rd
candidate, never evaluates the 4th, and returns true. -/
theorem C4_first_violated_short_circuit :
    (∀ (M Cand σ : Type) (how_violated : Cand → Option M)
      (add_violated : Cand → σ → σ) (l1 : List Cand) (c : Cand)
      (l2 : List Cand) (s : σ),
      (∀ x ∈ l1, (how_violated x).isSome = false) →
      (how_violated c).isSome = true →
      first_violated_scan how_violated (l1 ++ c :: l2) =
        (some c, l1.length + 1) ∧
      add_first_violated (l1 ++ c :: l2) how_violated add_violated
        (fun l => l) s = (true, add_violated c s)) ∧
    first_violated_scan (fun i : ℕ => if 2 ≤ i then some i else none)
      [0, 1, 2, 3] = (some 2, 3) ∧
    add_first_violated [0, 1, 2, 3]
      (fun i : ℕ => if 2 ≤ i then some i else none)
      (fun c l => c :: l) (fun l => l) ([] : List ℕ) = (true, [2]) := by
  refine ⟨?_, by decide, by decide⟩
  intro M Cand σ how add l1 c l2 s hok hc
  have hscan := first_violated_scan_append how l1 c l2 hok hc
  refine ⟨hscan, ?_⟩
  simp [add_first_violated, hscan]

/-- Witness for C4 at a concrete input: two satisfied candidates followed by
a violated one; the scan commits it after exactly three evaluations. -/
theorem C4_first_violated_short_circuit_witness :
    first_violated_scan (fun i : ℕ => if 5 ≤ i then some i else none)
      ([0, 1] ++ 5 :: [6]) = (some 5, 3) :=
  (C4_first_violated_short_circuit.1 ℕ ℕ (List ℕ)
    (fun i : ℕ => if 5 ≤ i then some i else none) (fun c l => c :: l)
    [0, 1] 5 [6] [] (by decide) (by decide)).1

/-- C5: with an empty candidate sequence every oracle variant returns false
without evaluating `how_violated` (the scan counters are 0) and without
touching the LP state; in the random variant the drawn offset is
`raw % (0 + 1) = 0`, the rotation is a no-op on the empty sequence, and no
arithmetic fault occurs. -/
theorem C5_empty_candidates (M Cand G σ : Type) (how_violated : Cand → Option M)
    (add_violated : Cand → σ → σ) (cmp : M → M → Bool) (next : G → ℕ × G)
    (g : G) (s : σ) :
    add_max_violated ([] : List Cand) how_violated add_violated cmp s =
      (false, s) ∧
    (max_violated_scan how_violated cmp none 0 ([] : List Cand)).2 = 0 ∧
    add_first_violated ([] : List Cand) how_violated add_violated
      (fun l => l) s = (false, s) ∧
    (first_violated_scan how_violated ([] : List Cand)).2 = 0 ∧
    (next g).1 % (([] : List Cand).length + 1) = 0 ∧
    random_rotate next g ([] : List Cand) = ([], (next g).2) ∧
    random_violated_oracle ([] : List Cand) how_violated add_violated next
      (g, s) = (false, ((next g).2, s)) := by
  refine ⟨rfl, rfl, rfl, rfl, Nat.mod_one _, ?_, ?_⟩
  · simp [random_rotate, rotate]
  · simp [random_violated_oracle, random_rotate, rotate, add_first_violated,
      first_violated_scan]

/-- C2: exactness — whenever the max-violated oracle returns false, every
candidate's violation measure was empty; whenever the first-violated oracle
returns false, every candidate in the scanned (reordered) sequence tested
as not violated, and hence — for any reordering that permutes the
candidates, such as the identity or a rotation — every candidate produced
by `get_candidates` tested as not violated (no false negatives). -/
theorem C2_oracle_exactness (M Cand σ : Type) (cands : List Cand)
    (how_violated : Cand → Option M) (add_violated : Cand → σ → σ)
    (cmp : M → M → Bool) (reorder_candidates : List Cand → List Cand) (s : σ) :
    ((add_max_violated cands how_violated add_violated cmp s).1 = false →
      ∀ c ∈ cands, how_violated c = none) ∧
    ((add_first_violated cands how_violated add_violated
        reorder_candidates s).1 = false →
      ∀ c ∈ reorder_candidates cands, (how_violated c).isSome = false) ∧
    (List.Perm (reorder_candidates cands) cands →
      (add_first_violated cands how_violated add_violated
        reorder_candidates s).1 = false →
      ∀ c ∈ cands, (how_violated c).isSome = false) := by
  have hfirst : (add_first_violated cands how_violated add_violated
      reorder_candidates s).1 = false →
      ∀ c ∈ reorder_candidates cands, (how_violated c).isSome = false := by
    intro h c hc
    unfold add_first_violated at h
    cases hscan : (first_violated_scan how_violated
        (reorder_candidates cands)).1 with
    | none => exact first_violated_scan_eq_none how_violated _ hscan c hc
    | some c0 => rw [hscan] at h; simp at h
  have hmax : (add_max_violated cands how_violated add_violated cmp s).1 =
      false → ∀ c ∈ cands, how_violated c = none := by
    intro h c hc
    unfold add_max_violated at h
    cases hscan : (max_violated_scan how_violated cmp none 0 cands).1 with
    | none =>
      exact (max_violated_scan_eq_none how_violated cmp cands none 0 hscan).2 c hc
    | some mc => rw [hscan] at h; simp at h
  exact ⟨hmax, hfirst, fun hperm h c hc => hfirst h c (hperm.mem_iff.mpr hc)⟩

/-- Witness for C2 at a concrete input: two candidates, neither violated,
identity reordering; the oracle returns false and indeed candidate 0 tests
as not violated. -/
theorem C2_oracle_exactness_witness :
    ((fun _ : ℕ => (none : Option ℕ)) 0).isSome = false :=
  (C2_oracle_exactness ℕ ℕ (List ℕ) [0, 1] (fun _ => none)
    (fun c l => c :: l) (fun a b => decide (a < b)) (fun l => l) []).2.2
    (List.Perm.refl _) (by decide) 0 (by decide)

/-- C6: each oracle invocation performs at most one constraint addition: the
returned LP state is either exactly the input state (and the oracle returned
false — zero additions) or `add_violated c` of the input state for a single
candidate `c` (and the oracle returned true — one addition); for the random
variant the same holds for the LP component while the generator advances. -/
theorem C6_at_most_one_addition (M Cand G σ : Type) (cands : List Cand)
    (how_violated : Cand → Option M) (add_violated : Cand → σ → σ)
    (cmp : M → M → Bool) (reorder_candidates : List Cand → List Cand)
    (next : G → ℕ × G) (g : G) (s : σ) :
    (add_max_violated cands how_violated add_violated cmp s = (false, s) ∨
      ∃ c, add_max_violated cands how_violated add_violated cmp s =
        (true, add_violated c s)) ∧
    (add_first_violated cands how_violated add_violated reorder_candidates s =
        (false, s) ∨
      ∃ c, add_first_violated cands how_violated add_violated
        reorder_candidates s = (true, add_violated c s)) ∧
    (random_violated_oracle cands how_violated add_violated next (g, s) =
        (false, ((next g).2, s)) ∨
      ∃ c, random_violated_oracle cands how_violated add_violated next
        (g, s) = (true, ((next g).2, add_violated c s))) := by
  refine ⟨?_, ?_, ?_⟩
  · unfold add_max_violated
    cases (max_violated_scan how_violated cmp none 0 cands).1 with
    | none => exact Or.inl rfl
    | some mc => exact Or.inr ⟨mc.2, rfl⟩
  · unfold add_first_violated
    cases (first_violated_scan how_violated (reorder_candidates cands)).1 with
    | none => exact Or.inl rfl
    | some c => exact Or.inr ⟨c, rfl⟩
  · cases hscan : (first_violated_scan how_violated
        (random_rotate next g cands).1).1 with
    | none =>
      left
      simp only [random_violated_oracle, add_first_violated, hscan]
      rfl
    | some c =>
      right
      refine ⟨c, ?_⟩
      simp only [random_violated_oracle, add_first_violated, hscan]
      rfl

/-- C9: the random-violated oracle is reproducible and stream-based: the
rotation applied and the successor generator state are a pure function of
the seed and the candidate list (the characterization equation — equal
seeds and equal inputs give equal offsets and equal scan orders); the
generator component advances by exactly one `next` per invocation, also
when no candidate is violated, and a second sequential invocation consumes
the next value of the same stream; with the counter generator seeded at 7
and the candidate list [0, 1, 2, 3, 4] of length 5 the drawn offset is
7 % 6 = 1 and the scan order is [1, 2, 3, 4, 0]. -/
theorem C9_random_rotate_reproducible (M Cand G σ : Type) (cands : List Cand)
    (how_violated : Cand → Option M) (add_violated : Cand → σ → σ)
    (next : G → ℕ × G) (g : G) (s : σ) :
    random_rotate next g cands =
      (rotate cands ((next g).1 % (cands.length + 1)), (next g).2) ∧
    (random_violated_oracle cands how_violated add_violated next
      (g, s)).2.1 = (next g).2 ∧
    (random_violated_oracle cands how_violated add_violated next
      ((random_violated_oracle cands how_violated add_violated next
        (g, s)).2)).2.1 = (next (next g).2).2 ∧
    random_rotate counter_gen 7 [0, 1, 2, 3, 4] = ([1, 2, 3, 4, 0], 8) :=
  ⟨rfl, rfl, rfl, by decide⟩

/-- C10: on every invocation the max-violated oracle evaluates
`how_violated` exactly once per candidate — the scan counter equals the
number of candidates, whatever the violation results — and the committed
pair was recorded during that single pass: the recorded measure is exactly
the result of the single `how_violated` evaluation of the recorded
candidate, which is one of the candidates, and the commit reuses the
recorded candidate without any further evaluation. -/
theorem C10_max_violated_single_pass (M Cand σ : Type) (cands : List Cand)
    (how_violated : Cand → Option M) (add_violated : Cand → σ → σ)
    (cmp : M → M → Bool) (s : σ) :
    (max_violated_scan how_violated cmp none 0 cands).2 = cands.length ∧
    (∀ m c, (max_violated_scan how_violated cmp none 0 cands).1 =
        some (m, c) → how_violated c = some m ∧ c ∈ cands) ∧
    (∀ m c, (max_violated_scan how_violated cmp none 0 cands).1 =
        some (m, c) → add_max_violated cands how_violated add_violated cmp s =
        (true, add_violated c s)) := by
  refine ⟨?_, ?_, ?_⟩
  · have h := max_violated_scan_count how_violated cmp cands none 0
    simpa using h
  · intro m c h
    exact max_violated_scan_eq_some how_violated cmp cands cands none 0
      (fun x hx => hx) (by simp) m c h
  · intro m c h
    unfold add_max_violated
    rw [h]

/-- Witness for C10 at a concrete input: on measures [3, 7, 2, 7] the pass
records the pair (7, candidate 1), whose measure is a real `how_violated`
result of a listed candidate. -/
theorem C10_max_violated_single_pass_witness :
    (fun i : ℕ => [3, 7, 2, 7].get? i) 1 = some 7 ∧ 1 ∈ [0, 1, 2, 3] :=
  (C10_max_violated_single_pass ℕ ℕ (List ℕ) [0, 1, 2, 3]
    (fun i => [3, 7, 2, 7].get? i) (fun c l => c :: l)
    (fun a b => decide (a < b)) []).2.1 7 1 (by decide)

/-- C7 counterexample: the claim that each candidate appears as the scan's
starting position with uniform frequency over the uniform offset choice is
false at the concrete two-candidate input [10, 20]: the drawn offset ranges
over the inclusive interval [0, 2] (three values, one full residue cycle of
raw draws 0, 1, 2 of the counter generator), and the rotations by offsets 0
and 2 both start at candidate 10, so candidate 10 starts the scan for 2 of
the 3 offsets while candidate 20 starts it for only 1 — the first candidate
is favored. -/
theorem C7_random_start_not_uniform :
    ((Finset.range 3).filter
      (fun o => ((random_rotate counter_gen o [10, 20]).1).head? =
        some 10)).card = 2 ∧
    ((Finset.range 3).filter
      (fun o => ((random_rotate counter_gen o [10, 20]).1).head? =
        some 20)).card = 1 := by
  decide

/-- C7 amended: the reorder transform draws a uniformly distributed offset
over the inclusive range [0, length] — `length + 1` values — and left-rotates
the sequence by it; the scan's starting candidate for offset `o` is the
candidate at index `o % length`, and over the `length + 1` equiprobable
offsets the candidate at index 0 starts the scan for exactly two of them
(offsets 0 and length) while each candidate at an index `0 < i < length`
starts it for exactly one, so the starting position is uniform over the
candidates only when there are fewer than two of them. -/
theorem C7_random_rotate_start_distribution {α : Type} (l : List α)
    (o n i : ℕ) (hl : l ≠ []) (ho : o ≤ l.length) (hn : 0 < n) (hi : i < n) :
    (rotate l o).head? = l[o % l.length]? ∧
    ((Finset.range (n + 1)).filter (fun o2 => o2 % n = i)).card =
      if i = 0 then 2 else 1 := by
  constructor
  · have hrot : rotate l o = l.rotate o :=
      (List.rotate_eq_drop_append_take ho).symm
    rw [hrot, List.head?_eq_getElem?,
      List.getElem?_rotate (List.length_pos.mpr hl), Nat.zero_add]
  · have hfilter : (Finset.range (n + 1)).filter (fun o2 => o2 % n = i) =
        if i = 0 then ({0, n} : Finset ℕ) else {i} := by
      by_cases hi0 : i = 0
      · subst hi0
        rw [if_pos rfl]
        ext o2
        simp only [Finset.mem_filter, Finset.mem_range, Finset.mem_insert,
          Finset.mem_singleton]
        constructor
        · rintro ⟨ho2, hmod⟩
          rcases Nat.eq_zero_or_pos o2 with h0 | hpos
          · exact Or.inl h0
          · have hdvd : n ∣ o2 := Nat.dvd_of_mod_eq_zero hmod
            have hle : n ≤ o2 := Nat.le_of_dvd hpos hdvd
            right
            omega
        · rintro (h0 | hn2)
          · exact ⟨by omega, by rw [h0, Nat.zero_mod]⟩
          · exact ⟨by omega, by rw [hn2, Nat.mod_self]⟩
      · rw [if_neg hi0]
        ext o2
        simp only [Finset.mem_filter, Finset.mem_range, Finset.mem_singleton]
        constructor
        · rintro ⟨ho2, hmod⟩
          rcases Nat.lt_or_ge o2 n with hlt | hge
          · rw [Nat.mod_eq_of_lt hlt] at hmod; exact hmod
          · have heq : o2 = n := by omega
            rw [heq, Nat.mod_self] at hmod
            exact absurd hmod.symm hi0
        · intro h2
          subst h2
          exact ⟨by omega, Nat.mod_eq_of_lt hi⟩
    rw [hfilter]
    by_cases hi0 : i = 0
    · rw [if_pos hi0, if_pos hi0]
      rw [Finset.card_insert_of_not_mem (by simp; omega),
        Finset.card_singleton]
    · rw [if_neg hi0, if_neg hi0, Finset.card_singleton]

/-- Witness for the amended C7 at a concrete input: for the two-candidate
list [10, 20] and offset 2, the scan starts at index 2 % 2 = 0, and over
the three offsets exactly two map to index 0. -/
theorem C7_random_rotate_start_distribution_witness :
    (rotate [10, 20] 2).head? = [10, 20][2 % 2]? ∧
    ((Finset.range 3).filter (fun o2 => o2 % 2 = 0)).card = 2 := by
  have h := C7_random_rotate_start_distribution [10, 20] 2 2 0
    (by decide) (by decide) (by decide) (by decide)
  exact ⟨h.1, h.2⟩

/-- C8 counterexample: the claimed hypotheses — finite candidate space and
monotonically non-increasing violation tests — do not give the bound.  With
the single candidate `()` that is violated at every row set (trivially
monotone: it is never satisfied, so nothing ever becomes unsatisfied) and
an always-OPTIMAL solver, the wired loop re-adds the same row forever: it
has not finished within (number of distinct addable constraints + 1) = 2
iterations of the solve/add loop. -/
theorem C8_termination_counterexample :
    violation_monotone (fun (_ : Unit) _ => true) ∧
    row_generation_first_violated [()] (fun _ _ => true)
      (fun _ => problem_type.OPTIMAL) 2 ∅ = none := by
  constructor
  · intro c S T _ h
    simp at h
  · rfl

/-- C8 amended: the bound holds with the additional hypothesis that an
already-added row never tests as violated (the re-solved LP satisfies the
rows it carries): for a finite candidate list, a monotone violation test,
and any solver, the loop returns within any number of iterations exceeding
the number of distinct constraints still addable from the starting row set
— in particular within (distinct addable constraints + 1) iterations. -/
theorem C8_termination_bound {Cand : Type} [DecidableEq Cand]
    (cands : List Cand) (violated : Cand → Finset Cand → Bool)
    (solve : Finset Cand → problem_type)
    (_hmono : violation_monotone violated)
    (hadded : ∀ c S, c ∈ S → violated c S = false) :
    ∀ (fuel : ℕ) (s : Finset Cand), (cands.toFinset \ s).card < fuel →
      (row_generation_first_violated cands violated solve fuel s).isSome = true := by
  unfold row_generation_first_violated
  intro fuel
  induction fuel with
  | zero => intro s h; omega
  | succ f ih =>
    intro s h
    rw [row_generation]
    simp only
    by_cases hopt : solve s = problem_type.OPTIMAL
    · rw [if_pos hopt]
      cases hscan : (first_violated_scan
          (fun c => if violated c s then some () else none) cands).1 with
      | none =>
        simp only [add_first_violated, hscan]
        simp
      | some c =>
        simp only [add_first_violated, hscan]
        simp only [if_true]
        obtain ⟨hmem, hsome⟩ := first_violated_scan_eq_some
          (fun c2 => if violated c2 s then some () else none) cands c hscan
        have hviol : violated c s = true := by
          by_cases hv : violated c s = true
          · exact hv
          · rw [Bool.not_eq_true] at hv
            rw [hv] at hsome
            simp at hsome
        have hnotmem : c ∉ s := by
          intro hmem2
          rw [hadded c s hmem2] at hviol
          cases hviol
        have hsdiff : cands.toFinset \ insert c s =
            (cands.toFinset \ s).erase c := Finset.sdiff_insert _ _ _
        have hcmem : c ∈ cands.toFinset \ s := by
          rw [Finset.mem_sdiff, List.mem_toFinset]
          exact ⟨hmem, hnotmem⟩
        have hcard : (cands.toFinset \ insert c s).card =
            (cands.toFinset \ s).card - 1 := by
          rw [hsdiff, Finset.card_erase_of_mem hcmem]
        have hpos : 0 < (cands.toFinset \ s).card :=
          Finset.card_pos.mpr ⟨c, hcmem⟩
        exact ih (insert c s) (by omega)
    · rw [if_neg hopt]
      simp

/-- Witness for the amended C8 at a concrete input: three candidates, each
violated exactly while absent from the row set; from the empty row set the
loop finishes within 3 + 1 = 4 iterations. -/
theorem C8_termination_bound_witness :
    (row_generation_first_violated [0, 1, 2]
      (fun c S => decide (c ∉ S)) (fun _ => problem_type.OPTIMAL)
      4 ∅).isSome = true := by
  refine C8_termination_bound [0, 1, 2] (fun c S => decide (c ∉ S))
    (fun _ => problem_type.OPTIMAL) ?_ ?_ 4 ∅ (by decide)
  · intro c S T hst h
    simp only [decide_eq_false_iff_not, Decidable.not_not] at h ⊢
    exact hst h
  · intro c S h2
    simp [h2]

end Paal
